import Mathlib

/-!
Shallow embedding of the go-audio/aiff decoder (decoder.go as found in the
source tree, together with chunk_parsing.go) and proofs of the behavioural
claims about it.  Byte streams are lists of naturals (< 256 by construction),
the `io.ReadSeeker` is a list plus a cursor, and the mutable `Decoder`
receiver becomes explicit state passing.  Go errors built with `fmt.Errorf`
wrappers become an inductive error type whose constructors mirror the wrap
sites, so that "same error" versus "wrapped error" is faithfully observable.
-/

namespace aiff

/-- A byte value (0..255); we use `Nat`, kept below 256 by construction. -/
abbrev Byte := Nat

/-- Four-character chunk / form identifier (`[4]byte` in the source). -/
structure FourCC where
  b0 : Byte
  b1 : Byte
  b2 : Byte
  b3 : Byte
deriving DecidableEq, Repr

/-- The zero value of a Go `[4]byte`. -/
def FourCC.zero : FourCC := ⟨0, 0, 0, 0⟩

/-- Builds a `FourCC` from the first four bytes of a list (zero if shorter). -/
def fourCCOf : List Byte → FourCC
  | a :: b :: c :: d :: _ => ⟨a, b, c, d⟩
  | _ => FourCC.zero

/-- The four raw bytes of a `FourCC`. -/
def FourCC.bytes (c : FourCC) : List Byte := [c.b0, c.b1, c.b2, c.b3]

/-- Chunk and form identifiers from the source (ASCII codes). -/
def formID : FourCC := ⟨70, 79, 82, 77⟩

/-- The form type literal AIFF. -/
def aiffID : FourCC := ⟨65, 73, 70, 70⟩

/-- The form type literal AIFC. -/
def aifcID : FourCC := ⟨65, 73, 70, 67⟩

/-- The common (format) chunk identifier COMM. -/
def COMMID : FourCC := ⟨67, 79, 77, 77⟩

/-- The comments chunk identifier COMT. -/
def COMTID : FourCC := ⟨67, 79, 77, 84⟩

/-- The sound data chunk identifier SSND. -/
def SSNDID : FourCC := ⟨83, 83, 78, 68⟩

/-- The Apple channel layout chunk identifier CHAN. -/
def chanID : FourCC := ⟨67, 72, 65, 78⟩

/-- The Apple loop metadata chunk identifier basc. -/
def bascID : FourCC := ⟨98, 97, 115, 99⟩

/-- The Apple transient chunk identifier trns. -/
def trnsID : FourCC := ⟨116, 114, 110, 115⟩

/-- The Apple categorization chunk identifier cate. -/
def cateID : FourCC := ⟨99, 97, 116, 101⟩

/-- The AIFC byte-swapped PCM compression code sowt. -/
def encSowt : FourCC := ⟨115, 111, 119, 116⟩

/-- The AIFC straight PCM compression code NONE. -/
def encNone : FourCC := ⟨78, 79, 78, 69⟩

/-- The unset compression code (zero value). -/
def encNotSet : FourCC := FourCC.zero

/-- Big-endian value of a byte list (the source reads fixed-width big-endian
integers with encoding/binary). -/
def beVal (bs : List Byte) : Nat := bs.foldl (fun a b => a * 256 + b) 0

/-- Big-endian 4-byte encoding of a value below 2^32. -/
def u32be (n : Nat) : List Byte :=
  [n / 16777216 % 256, n / 65536 % 256, n / 256 % 256, n % 256]

/-- Two's-complement reinterpretation of a `w`-bit unsigned value as signed,
matching Go's `int16`/`int32` conversions. -/
def sint (w : Nat) (n : Nat) : Int :=
  if n < 2 ^ (w - 1) then (n : Int) else (n : Int) - 2 ^ w

/-- Errors as produced by the decoder.  Constructors mirror the `fmt.Errorf`
wrap sites of the source so that wrapping is observable. -/
inductive DErr where
  | eof
  | truncated
  | fmtNotSupported
  | headerRead (e : DErr)
  | chunkHeader (e : DErr)
  | failedReadInfo (e : DErr)
  | parseErr (m : String)
  | msg (m : String)
deriving DecidableEq, Repr

/-- The seekable byte stream underlying the decoder (`io.ReadSeeker`). -/
structure Stream where
  data : List Byte
  pos : Nat
deriving DecidableEq, Repr

/-- Number of bytes still readable from the cursor. -/
def Stream.avail (s : Stream) : Nat := s.data.length - s.pos

/-- Reads up to `n` bytes (the semantics of `io.ReadFull` / `binary.Read`):
returns the bytes obtained, the advanced stream and an error that is `eof`
when nothing was available and `truncated` when only part was. -/
def Stream.readN (s : Stream) (n : Nat) : List Byte × Stream × Option DErr :=
  let got := min n s.avail
  ((s.data.drop s.pos).take got, { s with pos := s.pos + got },
    if got = n then none else if got = 0 then some .eof else some .truncated)

/-- Reads exactly `k` bytes from an in-memory buffer (`binary.Read` on a
`bytes.Buffer`): fails when fewer are available. -/
def bufRead (buf : List Byte) (k : Nat) : Option (List Byte × List Byte) :=
  if k ≤ buf.length then some (buf.take k, buf.drop k) else none

/-- Drops the trailing zero bytes of a list (`bytes.TrimRight(b, "\x00")`). -/
def rtrimZeros (l : List Byte) : List Byte :=
  (l.reverse.dropWhile (fun b => b = 0)).reverse

/-- Bytes of a string before the first NUL (`nullTermStr` in the source). -/
def nullTermStr (b : List Byte) : List Byte := b.takeWhile (fun x => x ≠ 0)

/-- Apple specific metadata decoded from the basc / cate chunks
(`AppleMetadata` in the source; strings are byte lists). -/
structure AppleMetadata where
  Beats : Nat := 0
  Note : Nat := 0
  Scale : Nat := 0
  Numerator : Nat := 0
  Denominator : Nat := 0
  IsLooping : Bool := false
  Tags : List (List Byte) := []
deriving DecidableEq, Repr

/-- A parsed chunk header.  Modelled from the spec: the repository's `Chunk`
type (identifier, declared size, a sub-reader bounded to that size over the
decoder's stream, and a cursor within it) is declared in a file absent from
the source tree; only its callers are present.  Reading through the chunk
advances the underlying stream; `Done` drains the unread remainder. -/
structure Chunk where
  id : FourCC
  size : Nat
  pos : Nat
deriving DecidableEq, Repr

/-- Modelled from the spec: reading `k` bytes through the chunk's bounded
sub-reader consumes `min k (size - pos)` bytes of the underlying stream
(capped by what the stream still has). -/
def chunkRead (c : Chunk) (s : Stream) (k : Nat) : List Byte × Chunk × Stream :=
  let got := min k (min (c.size - c.pos) s.avail)
  ((s.data.drop s.pos).take got, { c with pos := c.pos + got },
    { s with pos := s.pos + got })

/-- Modelled from the spec: `Chunk.Done` drains whatever of the declared size
has not been consumed yet, so the stream cursor lands on the next header. -/
def chunkDone (c : Chunk) (s : Stream) : Chunk × Stream :=
  ({ c with pos := c.size }, { s with pos := s.pos + min (c.size - c.pos) s.avail })

/-- Sample byte order (`binary.ByteOrder` restricted to the two used). -/
inductive ByteOrder where
  | be
  | le
deriving DecidableEq, Repr

/-- The decoder state (`Decoder` in the source).  The `io.ReadSeeker` is kept
outside and passed explicitly; every other field matches the Go struct. -/
structure Decoder where
  ID : FourCC := FourCC.zero
  Size : Nat := 0
  Form : FourCC := FourCC.zero
  commSize : Nat := 0
  NumChans : Nat := 0
  NumSampleFrames : Nat := 0
  BitDepth : Nat := 0
  SampleRate : Int := 0
  PCMSize : Nat := 0
  PCMChunk : Option Chunk := none
  Comments : List (List Byte) := []
  Encoding : FourCC := FourCC.zero
  EncodingName : List Byte := []
  HasAppleInfo : Bool := false
  AppleInfo : AppleMetadata := {}
  err : Option DErr := none
  pcmDataAccessed : Bool := false
  byteOrder : ByteOrder := ByteOrder.be
  rewindBytes : Nat := 0
deriving DecidableEq, Repr

/-- `NewDecoder`: fresh decoder over a reader, byte order big-endian. -/
def NewDecoder : Decoder := {}

/-- `Decoder.Err`: the first non-EOF error encountered. -/
def Err (d : Decoder) : Option DErr :=
  if d.err = some .eof then none else d.err

/-- `Decoder.EOF`: whether the underlying reader reached end of file
(on a nil decoder: true). -/
def dEOF : Option Decoder → Bool
  | none => true
  | some d => d.err = some .eof

/-- `Decoder.Reset`: rewinds the stream to position zero and clears the
fields the source clears (ID, Size, Form, commSize, NumChans,
NumSampleFrames, BitDepth, SampleRate, Encoding, EncodingName, err,
pcmDataAccessed); the remaining fields are left untouched. -/
def Reset (d : Decoder) (s : Stream) : Decoder × Stream :=
  ({ d with
      ID := FourCC.zero
      Size := 0
      Form := FourCC.zero
      commSize := 0
      NumChans := 0
      NumSampleFrames := 0
      BitDepth := 0
      SampleRate := 0
      Encoding := FourCC.zero
      EncodingName := []
      err := none
      pcmDataAccessed := false },
    { s with pos := 0 })

/-- The pascal-style encoding-name block at the end of an AIFC COMM chunk:
a one-byte length then that many description bytes (the tail of the
`binary.Read` sequence of `parseCommChunk`). -/
def parseCommName (d : Decoder) (buf : List Byte) : Decoder :=
  match bufRead buf 1 with
  | none => { d with err := some (.parseErr "AIFC encoding failed to parse") }
  | some (b, buf) =>
    let nameSize := beVal b
    if 0 < nameSize then
      match bufRead buf nameSize with
      | none => { d with err := some (.parseErr "AIFC encoding failed to parse") }
      | some (nb, _) => { d with EncodingName := nb }
    else d

/-- Field-by-field parsing of the COMM payload buffer (the sequence of
`binary.Read` calls of `parseCommChunk` after the `io.CopyN` into `src`).
Each successful read clears `err` (the source assigns the nil result of
`binary.Read` to `d.err`); each failure stores the wrapped field error.
The external collaborator `audio.IEEEFloatToInt` is passed in as `ieee`. -/
def parseCommFields (ieee : List Byte → Int) (d : Decoder) (buf : List Byte) : Decoder :=
  match bufRead buf 2 with
  | none => { d with err := some (.parseErr "num of channels failed to parse") }
  | some (b, buf) =>
  let d := { d with NumChans := beVal b, err := none }
  match bufRead buf 4 with
  | none => { d with err := some (.parseErr "num of sample frames failed to parse") }
  | some (b, buf) =>
  let d := { d with NumSampleFrames := beVal b }
  match bufRead buf 2 with
  | none => { d with err := some (.parseErr "sample size failed to parse") }
  | some (b, buf) =>
  let d := { d with BitDepth := beVal b }
  match bufRead buf 10 with
  | none => { d with err := some (.parseErr "sample rate failed to parse") }
  | some (b, buf) =>
  let d := { d with SampleRate := ieee b }
  if d.Form = aifcID then
    match bufRead buf 4 with
    | none => { d with err := some (.parseErr "AIFC encoding failed to parse") }
    | some (b, buf) =>
    let d := { d with Encoding := fourCCOf b }
    let d := if fourCCOf b = encSowt then { d with byteOrder := ByteOrder.le } else d
    parseCommName d buf
  else d

/-- `Decoder.parseCommChunk`: a no-op when `NumChans` is already set;
otherwise records `commSize`, copies `size` bytes of the stream into a local
buffer (truncating at end of stream, like `io.CopyN`) and parses the fields
from that buffer.  The trailing `io.CopyN(ioutil.Discard, src, ...)` only
drains the local buffer and has no stream effect.  Returns the error the Go
method returns (its final `d.err`). -/
def parseCommChunk (ieee : List Byte → Int) (d : Decoder) (s : Stream) (size : Nat) :
    Decoder × Stream × Option DErr :=
  if 0 < d.NumChans then (d, s, none)
  else
    let got := min size s.avail
    let buf := (s.data.drop s.pos).take got
    let s' := { s with pos := s.pos + got }
    let d' := parseCommFields ieee { d with commSize := size } buf
    (d', s', d'.err)

/-- `Decoder.iDnSize`: reads a 4-byte identifier then a 4-byte big-endian
size from the stream. -/
def iDnSize (s : Stream) : (FourCC × Nat) × Stream × Option DErr :=
  let (b1, s1, e1) := s.readN 4
  match e1 with
  | some e => ((fourCCOf b1, 0), s1, some e)
  | none =>
    let (b2, s2, e2) := s1.readN 4
    match e2 with
    | some e => ((fourCCOf b1, 0), s2, some e)
    | none => ((fourCCOf b1, beVal b2), s2, none)

/-- `Decoder.readHeaders`: parses the 12-byte FORM header.  Idempotent: once
`Size` is non-zero it returns nil without touching the stream.  On the
reading path it copies 12 bytes into a local buffer then parses ID, Size and
Form, rejecting anything that is not FORM + (AIFF | AIFC). -/
def readHeaders (d : Decoder) (s : Stream) : Decoder × Stream × Option DErr :=
  if 0 < d.Size then (d, s, none)
  else
    let got := min 12 s.avail
    let buf := (s.data.drop s.pos).take got
    let s' := { s with pos := s.pos + got }
    match bufRead buf 4 with
    | none =>
        let e : DErr := if buf.length = 0 then .eof else .truncated
        ({ d with err := some e }, s', some e)
    | some (b, buf) =>
    let d := { d with ID := fourCCOf b, err := none }
    if d.ID ≠ formID then
      ({ d with err := some .fmtNotSupported }, s', some .fmtNotSupported)
    else
      match bufRead buf 4 with
      | none =>
          let e : DErr := if buf.length = 0 then .eof else .truncated
          ({ d with err := some e }, s', some e)
      | some (b, buf) =>
      let d := { d with Size := beVal b }
      match bufRead buf 4 with
      | none =>
          let e : DErr := if buf.length = 0 then .eof else .truncated
          ({ d with err := some e }, s', some e)
      | some (b, _) =>
      let d := { d with Form := fourCCOf b }
      if d.Form ≠ aiffID ∧ d.Form ≠ aifcID then
        ({ d with err := some .fmtNotSupported }, s', some .fmtNotSupported)
      else
        (d, s', none)

/-- One comment record of the COMT payload: skip the 8-byte marker/timestamp,
read the pascal-string length byte, read that many text bytes (zero-filled
when the buffer runs short) and trim trailing NULs.  `n` counts down the
declared number of comments. -/
def commentsGo : Nat → List Byte → List (List Byte)
  | 0, _ => []
  | n + 1, br =>
    let br := br.drop 8
    let len := br.headD 0
    let br := br.drop 1
    rtrimZeros (br.take len) :: commentsGo n (br.drop len)

/-- Comments decoded from a COMT payload buffer: a 16-bit big-endian count
followed by the comment records (count stays zero when the buffer cannot even
hold it, as the ignored `binary.Read` error leaves the variable unset). -/
def commentsFrom (buf : List Byte) : List (List Byte) :=
  let count := if 2 ≤ buf.length then beVal (buf.take 2) else 0
  commentsGo count (buf.drop 2)

/-- `Decoder.parseCommentsChunk`: copies the declared chunk size from the
stream into a buffer with `io.CopyN` (recording `io.EOF` into `d.err` and
returning it when the stream runs short), then appends the decoded comments. -/
def parseCommentsChunk (d : Decoder) (s : Stream) (c : Chunk) :
    Decoder × Stream × Option DErr :=
  if c.id ≠ COMTID then (d, s, some (.msg "unexpected comments chunk ID"))
  else if s.avail < c.size then
    ({ d with err := some .eof }, { s with pos := s.data.length }, some .eof)
  else
    let buf := (s.data.drop s.pos).take c.size
    let s' := { s with pos := s.pos + c.size }
    ({ d with err := none, Comments := d.Comments ++ commentsFrom buf }, s', none)

/-- The chunk-scanning loop of `Decoder.ReadInfo`, with the local
`rewindBytes` accumulator made explicit.  Each iteration first checks the
loop condition (`for d.err != io.EOF`), reads an id and size, and then:
a COMM chunk is parsed and, when earlier chunks were skipped, the stream is
seeked back by `rewind + size + 8`; a COMT chunk is parsed in place; any
other chunk adds `size + 8` to the accumulator (while the sample rate is
still zero) and is skipped with `jumpTo`.  `fuel` bounds the recursion; the
theorems always supply enough of it. -/
def readInfoLoop (ieee : List Byte → Int) :
    Nat → Decoder → Stream → Nat → Decoder × Stream
  | 0, d, s, _ => (d, s)
  | fuel + 1, d, s, rewind =>
    if d.err = some .eof then (d, s)
    else
      match iDnSize s with
      | (_, s', some e) => ({ d with err := some (.chunkHeader e) }, s')
      | ((id, size), s', none) =>
        let d := { d with err := none }
        if id = COMMID then
          let (d', s'', _) := parseCommChunk ieee d s' size
          if 0 < rewind then (d', { s'' with pos := s''.pos - (rewind + size + 8) })
          else (d', s'')
        else if id = COMTID then
          let (d', s'', _) := parseCommentsChunk d s' ⟨id, size, 0⟩
          readInfoLoop ieee fuel d' s'' rewind
        else
          let rewind := if d.SampleRate = 0 then rewind + size + 8 else rewind
          readInfoLoop ieee fuel d { s' with pos := s'.pos + size } rewind

/-- `Decoder.ReadInfo`: returns immediately once the sample rate is set;
otherwise reads the FORM header (wrapping a failure) and runs the format
scan with a fresh rewind accumulator. -/
def ReadInfo (ieee : List Byte → Int) (fuel : Nat) (d : Decoder) (s : Stream) :
    Decoder × Stream :=
  if 0 < d.SampleRate then (d, s)
  else
    let (d', s', e) := readHeaders d s
    match e with
    | some e' => ({ d' with err := some (.headerRead e') }, s')
    | none => readInfoLoop ieee fuel { d' with err := none } s' 0

/-- `Decoder.NextChunk`: ensures the format info was read (wrapping and
storing any recorded error), then reads the next chunk header, padding an
odd declared size by one byte.  A header read failing with EOF-like errors
is surfaced as plain EOF. -/
def NextChunk (ieee : List Byte → Int) (fuel : Nat) (d : Decoder) (s : Stream) :
    Option Chunk × Decoder × Stream × Option DErr :=
  let (d, s) := ReadInfo ieee fuel d s
  match d.err with
  | some e =>
      let d := { d with err := some (.failedReadInfo e) }
      (none, d, s, some (.failedReadInfo e))
  | none =>
    match iDnSize s with
    | ((_, _), s', some e) =>
        let d := { d with err := some e }
        if e = .eof ∨ e = .truncated then (none, d, s', some .eof)
        else (none, d, s', some (.chunkHeader e))
    | ((id, size), s', none) =>
        let size := size + size % 2
        (some ⟨id, size, 0⟩, { d with err := none }, s', none)

/-- `Decoder.parseBascChunk`: reads the Apple loop metadata fields through
the chunk's bounded reader (each ignored `binary.Read` error leaves the
target field untouched), sets looping only when the flag reads exactly 1,
then drains the chunk. -/
def parseBascChunk (d : Decoder) (s : Stream) (c : Chunk) :
    Decoder × Chunk × Stream × Option DErr :=
  if c.id ≠ bascID then (d, c, s, some (.msg "unexpected BASC chunk ID"))
  else
    let d := { d with HasAppleInfo := true }
    let (_, c, s) := chunkRead c s 4
    let (b, c, s) := chunkRead c s 4
    let d := if b.length = 4 then
        { d with AppleInfo := { d.AppleInfo with Beats := beVal b } } else d
    let (b, c, s) := chunkRead c s 2
    let d := if b.length = 2 then
        { d with AppleInfo := { d.AppleInfo with Note := beVal b } } else d
    let (b, c, s) := chunkRead c s 2
    let d := if b.length = 2 then
        { d with AppleInfo := { d.AppleInfo with Scale := beVal b } } else d
    let (b, c, s) := chunkRead c s 2
    let d := if b.length = 2 then
        { d with AppleInfo := { d.AppleInfo with Numerator := beVal b } } else d
    let (b, c, s) := chunkRead c s 2
    let d := if b.length = 2 then
        { d with AppleInfo := { d.AppleInfo with Denominator := beVal b } } else d
    let (_, c, s) := chunkRead c s 1
    let (b, c, s) := chunkRead c s 2
    let d := if b.length = 2 ∧ beVal b = 1 then
        { d with AppleInfo := { d.AppleInfo with IsLooping := true } } else d
    let (c, s) := chunkDone c s
    (d, c, s, none)

/-- One pass of the 50-byte tag slots of the cate chunk: each `Read(tmp)`
overwrites a prefix of the shared scratch buffer (stale bytes persist), a
slot is kept as a tag when its first byte is non-zero, and a read that
obtains nothing at all is the error that aborts the whole parse. -/
def cateTagLoop :
    Nat → Decoder → Chunk → Stream → List Byte →
      Decoder × Chunk × Stream × List Byte × Bool
  | 0, d, c, s, tmp => (d, c, s, tmp, true)
  | n + 1, d, c, s, tmp =>
    let (b, c, s) := chunkRead c s 50
    if b.length = 0 then (d, c, s, tmp, false)
    else
      let tmp := b ++ tmp.drop b.length
      let d := if 0 < tmp.headD 0 then
          { d with AppleInfo := { d.AppleInfo with Tags := d.AppleInfo.Tags ++ [nullTermStr tmp] } }
        else d
      cateTagLoop n d c s tmp

/-- `Decoder.parseCateChunk`: skips 4 bytes, reads the four main 50-byte
category slots, skips 16 bytes, reads a signed 16-bit descriptor count (its
`binary.Read` error is ignored, leaving the count at zero) and that many
further 50-byte slots, then drains the chunk. -/
def parseCateChunk (d : Decoder) (s : Stream) (c : Chunk) :
    Decoder × Chunk × Stream × Option DErr :=
  if c.id ≠ cateID then (d, c, s, some (.msg "unexpected CATE chunk ID"))
  else
    let d := { d with HasAppleInfo := true }
    let (b, c, s) := chunkRead c s 4
    if b.length = 0 then (d, c, s, some .eof)
    else
      match cateTagLoop 4 d c s (List.replicate 50 0) with
      | (d, c, s, _, false) => (d, c, s, some .eof)
      | (d, c, s, _, true) =>
        let (b, c, s) := chunkRead c s 16
        if b.length = 0 then (d, c, s, some .eof)
        else
          let (b2, c, s) := chunkRead c s 2
          let numDescriptors := if b2.length = 2 then (sint 16 (beVal b2)).toNat else 0
          match cateTagLoop numDescriptors d c s (List.replicate 50 0) with
          | (d, c, s, _, false) => (d, c, s, some .eof)
          | (d, c, s, _, true) =>
            let (c, s) := chunkDone c s
            (d, c, s, none)

/-- `Decoder.parseChunk` (chunk_parsing.go): dispatch by chunk identifier.
COMM re-parsing drains the chunk when `commSize` is already set, parses the
format fields and, when `rewindBytes` was accumulated, seeks the stream back
by it and resets it.  SSND / CHAN / trns chunks are drained, COMT / basc /
cate chunks are decoded (their errors merely logged), and every unrecognized
chunk adds its size to `rewindBytes` while the sample rate is still zero,
then is drained. -/
def parseChunk (ieee : List Byte → Int) (d : Decoder) (s : Stream) :
    Option Chunk → Decoder × Stream × Option DErr
  | none => (d, s, none)
  | some ch =>
    if ch.id = COMMID then
      let (ch, s) := if 0 < d.commSize then chunkDone ch s else (ch, s)
      let (d, s, e) := parseCommChunk ieee d s ch.size
      match e with
      | some e' => (d, s, some e')
      | none =>
        if 0 < d.rewindBytes then
          ({ d with rewindBytes := 0 }, { s with pos := s.pos - d.rewindBytes }, none)
        else (d, s, none)
    else if ch.id = SSNDID then
      let (_, s) := chunkDone ch s
      (d, s, none)
    else if ch.id = COMTID then
      let (d, s, _) := parseCommentsChunk d s ch
      (d, s, none)
    else if ch.id = bascID then
      let (d, _, s, _) := parseBascChunk d s ch
      (d, s, none)
    else if ch.id = chanID then
      let (_, s) := chunkDone ch s
      (d, s, none)
    else if ch.id = trnsID then
      let (_, s) := chunkDone ch s
      (d, s, none)
    else if ch.id = cateID then
      let (d, ch, s, _) := parseCateChunk d s ch
      let (_, s) := chunkDone ch s
      (d, s, none)
    else
      let d := if d.SampleRate = 0 then { d with rewindBytes := d.rewindBytes + ch.size } else d
      let (_, s) := chunkDone ch s
      (d, s, none)

/-- `Decoder.Drain`: repeatedly fetches and dispatches chunks while no error
is recorded; a chunk-fetch returning EOF and a dispatch returning EOF both
end the drain as success.  `fuel` bounds the recursion. -/
def Drain (ieee : List Byte → Int) :
    Nat → Decoder → Stream → Decoder × Stream × Option DErr
  | 0, d, s => (d, s, d.err)
  | fuel + 1, d, s =>
    match d.err with
    | some _ => (d, s, d.err)
    | none =>
      let (oc, d, s, e) := NextChunk ieee (fuel + 1) d s
      let d := { d with err := e }
      match e with
      | some e' => if e' = .eof then (d, s, none) else (d, s, some e')
      | none =>
        match parseChunk ieee d s oc with
        | (d, s, some pe) => if pe = .eof then (d, s, none) else (d, s, some pe)
        | (d, s, none) => Drain ieee fuel d s

/-- `Decoder.SampleBitDepth`: zero on a nil decoder. -/
def SampleBitDepth : Option Decoder → Int
  | none => 0
  | some d => d.BitDepth

/-- `Decoder.PCMLen`: zero on a nil decoder. -/
def PCMLen : Option Decoder → Int
  | none => 0
  | some d => d.PCMSize

/-- `Decoder.WasPCMAccessed`: false on a nil decoder. -/
def WasPCMAccessed : Option Decoder → Bool
  | none => false
  | some d => d.pcmDataAccessed

/-- The external `audio.Format` record produced by `Decoder.Format`. -/
structure AudioFormat where
  NumChannels : Nat
  SampleRate : Int
deriving DecidableEq, Repr

/-- `Decoder.Format`: nil on a nil decoder, otherwise channel count and
sample rate. -/
def Format : Option Decoder → Option AudioFormat
  | none => none
  | some d => some ⟨d.NumChans, d.SampleRate⟩

/-- Duration in nanoseconds.  The source computes this through float64 and
`time.Duration`; we use exact integer arithmetic (and 0 on a zero sample
rate, where the float expression is not a finite number).  Only the error
paths of `Duration` are load-bearing for the claims. -/
def durationNanos (d : Decoder) : Int :=
  if d.SampleRate = 0 then 0
  else d.NumSampleFrames * 1000000000 / d.SampleRate

/-- `Decoder.Duration`: errors on a nil decoder, reads the format info, and
returns the recorded non-EOF error if any, otherwise the duration. -/
def Duration (ieee : List Byte → Int) (fuel : Nat) :
    Option Decoder → Stream → Option Decoder × Stream × Int × Option DErr
  | none, s => (none, s, 0, some (.msg "cannot calculate the duration of a nil pointer"))
  | some d, s =>
    let (d, s) := ReadInfo ieee fuel d s
    match Err d with
    | some e => (some d, s, 0, some e)
    | none => (some d, s, durationNanos d, none)

/-- The source's `round(v, decimals)` helper, on exact rationals: multiply by
the power of ten, add one half, truncate toward zero, divide back. -/
def goRound (v : Rat) (decimals : Nat) : Rat :=
  let pow : Rat := (10 : Rat) ^ decimals
  let w := v * pow + 1 / 2
  ((w.num / (w.den : Int) : Int) : Rat) / pow

/-- `Decoder.Tempo`: -1 on a nil decoder, absent Apple metadata, a zero beat
count or a duration error; otherwise beats per minute rounded to two
decimals (exact rationals standing in for the source's float64). -/
def Tempo (ieee : List Byte → Int) (fuel : Nat) :
    Option Decoder → Stream → Option Decoder × Stream × Rat
  | none, s => (none, s, -1)
  | some d, s =>
    if ¬ d.HasAppleInfo ∨ d.AppleInfo.Beats < 1 then (some d, s, -1)
    else
      match Duration ieee fuel (some d) s with
      | (od, s, _, some _) => (od, s, -1)
      | (od, s, nanos, none) =>
        let durSeconds : Rat := (nanos : Rat) / 1000000000
        (od, s, goRound ((d.AppleInfo.Beats : Rat) / (durSeconds / 60)) 2)

/-- Result of one sample-decode call: the sample value, the error flag, the
bytes left in the block reader and the scratch buffer contents after the
call (Go keeps one scratch buffer alive across calls, so stale bytes are
observable). -/
structure DecRes where
  val : Int
  err : Bool
  rest : List Byte
  scratch : List Byte
deriving DecidableEq, Repr

/-- A decode function as returned by `sampleDecodeFunc`: block reader bytes
and scratch buffer in, `DecRes` out. -/
abbrev DecodeF := List Byte → List Byte → DecRes

/-- Semantics of `bytes.Reader.Read(buf[:k])`: EOF exactly when the reader
is exhausted, otherwise `min k len` bytes are copied over the front of the
scratch buffer (whose tail keeps its previous contents). -/
def bufsRead (r buf : List Byte) (k : Nat) : Nat × List Byte × List Byte × Bool :=
  let n := min k r.length
  (n, r.drop n, r.take n ++ buf.drop n, r.length = 0)

/-- Multi-byte value in the given byte order (`byteOrder.Uint16` / `Uint32`). -/
def beValOrd : ByteOrder → List Byte → Nat
  | .be, bs => beVal bs
  | .le, bs => beVal bs.reverse

/-- Modelled from the spec: the external audio collaborator's
`Int24BETo32` assembles three big-endian bytes into a sign-extended integer
("24-bit values are assembled/disassembled manually as three bytes",
"24-bit reconstructs the correct sign"). -/
def Int24BETo32 (b : List Byte) : Int := sint 24 (beVal (b.take 3))

/-- Modelled from the spec: the little-endian counterpart `Int24LETo32`. -/
def Int24LETo32 (b : List Byte) : Int := sint 24 (beVal (b.take 3).reverse)

/-- `sampleDecodeFunc`: the decode half of the sample codec table.  8-bit
samples are returned unsigned; 16- and 32-bit samples go through the byte
order then a signed reinterpretation; 24-bit samples go through the manual
three-byte assembly (returning 0 on a read error); any other depth is an
error naming the depth. -/
def sampleDecodeFunc (bitDepth : Nat) (byteOrder : ByteOrder) : Except String DecodeF :=
  if bitDepth = 8 then
    .ok (fun r buf =>
      let (_, r', buf', e) := bufsRead r buf 1
      ⟨(buf'.headD 0 : Int), e, r', buf'⟩)
  else if bitDepth = 16 then
    .ok (fun r buf =>
      let (_, r', buf', e) := bufsRead r buf 2
      ⟨sint 16 (beValOrd byteOrder (buf'.take 2)), e, r', buf'⟩)
  else if bitDepth = 24 then
    if byteOrder = .be then
      .ok (fun r buf =>
        let (_, r', buf', e) := bufsRead r buf 3
        if e then ⟨0, true, r', buf'⟩ else ⟨Int24BETo32 (buf'.take 3), false, r', buf'⟩)
    else
      .ok (fun r buf =>
        let (_, r', buf', e) := bufsRead r buf 3
        if e then ⟨0, true, r', buf'⟩ else ⟨Int24LETo32 (buf'.take 3), false, r', buf'⟩)
  else if bitDepth = 32 then
    .ok (fun r buf =>
      let (_, r', buf', e) := bufsRead r buf 4
      ⟨sint 32 (beValOrd byteOrder (buf'.take 4)), e, r', buf'⟩)
  else
    .error (toString bitDepth ++ " bit depth not supported")

/-- `bytesPerSample`. -/
def bytesPerSample (bitDepth : Nat) : Nat := bitDepth / 8

/-- Body of the decode loop of `Decoder.PCMBuffer`, recursing on the number
of free buffer slots so the recursion is structural: with no slot left the
counter `n` is returned; otherwise one decode call either fills slot `n`
and continues, or ends the loop — decrementing the counter once when the
block was misaligned, dropping the partial trailing sample decoded in the
previous iteration. -/
def pcmFillGo (f : DecodeF) (mis : Bool) :
    Nat → Nat → List Byte → List Byte → Int
  | 0, n, _, _ => (n : Int)
  | rem + 1, n, r, buf =>
    let res := f r buf
    if res.err then (if mis then (n : Int) - 1 else (n : Int))
    else pcmFillGo f mis rem (n + 1) res.rest res.scratch

/-- The decode loop of `Decoder.PCMBuffer` (`for n = 0; n < len(buf.Data)`),
starting at slot `n` of an `L`-slot buffer. -/
def pcmFill (f : DecodeF) (L : Nat) (mis : Bool) (n : Nat)
    (r buf : List Byte) : Int :=
  pcmFillGo f mis (L - n) n r buf

/-- `Decoder.PCMBuffer` after its PCM-located guard (the claims take
`WasPCMAccessed` as already true, so the `FwdToPCM` branch is skipped).
`pcm` models the bytes still readable through `d.PCMChunk.R`; `L` is the
caller buffer length.  One block read fetches `min (L * bytesPerSample)
(pcm.length)` raw bytes; exhaustion surfaces as a nil error with count 0;
the decode loop then fills the buffer from the block.  Returns the sample
count, the returned error and the bytes the block read left unconsumed. -/
def PCMBuffer (d : Decoder) (pcm : List Byte) (L : Nat) :
    Int × Option String × List Byte :=
  match sampleDecodeFunc d.BitDepth d.byteOrder with
  | .error e => (0, some ("could not get sample decode func " ++ e), pcm)
  | .ok f =>
    let bPerSample := bytesPerSample d.BitDepth
    let size := L * bPerSample
    let m := min size pcm.length
    if pcm.length = 0 then (0, none, pcm)
    else if m = 0 then (0, none, pcm)
    else
      let mis := decide (0 < m % bPerSample)
      (pcmFill f L mis 0 (pcm.take m) (List.replicate bPerSample 0), none, pcm.drop m)

/-- On-stream encoding of one chunk: identifier, big-endian size, payload
(sizes below 2^32; used to state theorems about the scan loop). -/
def chunkBytes (id : FourCC) (payload : List Byte) : List Byte :=
  id.bytes ++ u32be payload.length ++ payload

/-- On-stream encoding of a list of chunks. -/
def chunksBytes : List (FourCC × List Byte) → List Byte
  | [] => []
  | (id, p) :: rest => chunkBytes id p ++ chunksBytes rest

/-- The total number of bytes the scan loop accumulates for a chunk list:
each chunk contributes its payload size plus 8 header bytes. -/
def chunksRewind : List (FourCC × List Byte) → Nat
  | [] => 0
  | (_, p) :: rest => p.length + 8 + chunksRewind rest

/-- Specification of a decode function: on a reader holding at least `k`
bytes it consumes exactly `k` of them, reports no error and returns the
value `v` of the bytes consumed. -/
def DecodesExactly (f : DecodeF) (k : Nat) (v : List Byte → Int) : Prop :=
  ∀ r buf, k ≤ r.length → buf.length = k →
    (f r buf).rest = r.drop k ∧ (f r buf).err = false ∧
    (f r buf).val = v (r.take k)

/-- Step behaviour of a decode function on an arbitrary reader: it always
consumes `min k len` bytes, errors exactly on an exhausted reader, and keeps
the scratch buffer length at `k`. -/
def DecodeStepSpec (f : DecodeF) (k : Nat) : Prop :=
  ∀ r buf, buf.length = k →
    (f r buf).rest = r.drop k ∧
    (f r buf).err = decide (r.length = 0) ∧
    (f r buf).scratch.length = k

/-- Extracting a middle segment of a concatenation by position and length. -/
theorem seg_extract (pre mid post : List Byte) :
    ((pre ++ mid ++ post).drop pre.length).take mid.length = mid := by
  rw [List.append_assoc, List.drop_left, List.take_left]

/-- Length of a three-part concatenation. -/
theorem seg_length (pre mid post : List Byte) :
    (pre ++ mid ++ post).length = pre.length + mid.length + post.length := by
  simp [List.length_append]
  omega

/-- Reading a buffer succeeds when enough bytes are available. -/
theorem bufRead_pos (buf : List Byte) (k : Nat) (h : k ≤ buf.length) :
    bufRead buf k = some (buf.take k, buf.drop k) := by
  simp [bufRead, h]

/-- The big-endian 4-byte encoding round-trips for values below 2^32. -/
theorem beVal_u32be (n : Nat) (h : n < 4294967296) : beVal (u32be n) = n := by
  simp [beVal, u32be, List.foldl]
  omega

/-- The 4-byte encoding always has length 4. -/
theorem u32be_length (n : Nat) : (u32be n).length = 4 := rfl

/-- Rebuilding a four-character code from its bytes. -/
theorem fourCCOf_bytes (c : FourCC) : fourCCOf c.bytes = c := rfl

/-- A streamed read of a whole middle segment: the bytes come back exactly
and the cursor advances past them. -/
theorem readN_at (pre mid post : List Byte) (n : Nat) (hn : n = mid.length) :
    Stream.readN ⟨pre ++ mid ++ post, pre.length⟩ n =
      (mid, ⟨pre ++ mid ++ post, pre.length + n⟩, none) := by
  subst hn
  have havail : (Stream.avail ⟨pre ++ mid ++ post, pre.length⟩) =
      mid.length + post.length := by
    simp [Stream.avail, seg_length]
  have hmin : min mid.length (Stream.avail ⟨pre ++ mid ++ post, pre.length⟩) =
      mid.length := by
    rw [havail]; omega
  simp only [Stream.readN, hmin]
  rw [seg_extract]
  simp

/-- Reading an id and size field placed at the cursor. -/
theorem iDnSize_at (pre post : List Byte) (idb : FourCC) (z : Nat)
    (hz : z < 4294967296) :
    iDnSize ⟨pre ++ (idb.bytes ++ u32be z) ++ post, pre.length⟩ =
      ((idb, z), ⟨pre ++ (idb.bytes ++ u32be z) ++ post, pre.length + 8⟩, none) := by
  have h1 : Stream.readN ⟨pre ++ (idb.bytes ++ u32be z) ++ post, pre.length⟩ 4 =
      (idb.bytes, ⟨pre ++ (idb.bytes ++ u32be z) ++ post, pre.length + 4⟩, none) := by
    have := readN_at pre idb.bytes (u32be z ++ post) 4 rfl
    simpa [List.append_assoc] using this
  have h2 : Stream.readN ⟨pre ++ (idb.bytes ++ u32be z) ++ post, pre.length + 4⟩ 4 =
      (u32be z, ⟨pre ++ (idb.bytes ++ u32be z) ++ post, pre.length + 4 + 4⟩, none) := by
    have := readN_at (pre ++ idb.bytes) (u32be z) post 4 (u32be_length z).symm
    have hlen : (pre ++ idb.bytes).length = pre.length + 4 := by
      simp [List.length_append, FourCC.bytes]
    rw [hlen] at this
    simpa [List.append_assoc] using this
  simp only [iDnSize, h1, h2, fourCCOf_bytes, beVal_u32be z hz]

/-- Parsing a COMM payload of at least 18 bytes on a non-AIFC form decodes
the four fixed fields and clears the error. -/
theorem parseCommFields_aiff (ieee : List Byte → Int) (d : Decoder) (buf : List Byte)
    (hf : d.Form ≠ aifcID) (hlen : 18 ≤ buf.length) :
    parseCommFields ieee d buf =
      { d with
          NumChans := beVal (buf.take 2)
          err := none
          NumSampleFrames := beVal ((buf.drop 2).take 4)
          BitDepth := beVal ((buf.drop 6).take 2)
          SampleRate := ieee ((buf.drop 8).take 10) } := by
  have e1 := bufRead_pos buf 2 (by omega)
  have e2 := bufRead_pos (buf.drop 2) 4 (by simp; omega)
  have e3 := bufRead_pos (buf.drop 6) 2 (by simp; omega)
  have e4 := bufRead_pos (buf.drop 8) 10 (by simp; omega)
  simp only [parseCommFields, e1, e2, e3, e4, List.drop_drop, Nat.reduceAdd]
  rw [if_neg hf]

/-- Parsing the COMM fields never touches the drain-phase rewind counter. -/
theorem parseCommFields_rewindBytes (ieee : List Byte → Int) (d : Decoder)
    (buf : List Byte) :
    (parseCommFields ieee d buf).rewindBytes = d.rewindBytes := by
  unfold parseCommFields parseCommName
  dsimp only
  repeat' split
  all_goals rfl

/-- Parsing the COMM fields never touches the recorded chunk size. -/
theorem parseCommFields_commSize (ieee : List Byte → Int) (d : Decoder)
    (buf : List Byte) :
    (parseCommFields ieee d buf).commSize = d.commSize := by
  unfold parseCommFields parseCommName
  dsimp only
  repeat' split
  all_goals rfl

/-- The encoding-name block never touches the byte order. -/
theorem parseCommName_byteOrder (d : Decoder) (buf : List Byte) :
    (parseCommName d buf).byteOrder = d.byteOrder := by
  unfold parseCommName
  dsimp only
  repeat' split
  all_goals rfl

/-- The byte order after parsing a COMM payload (whose fixed fields are
present): little-endian exactly when the form is AIFC and the four
compression-code bytes at offset 18 read sowt; otherwise unchanged. -/
theorem parseCommFields_byteOrder (ieee : List Byte → Int) (d : Decoder)
    (buf : List Byte) (hlen : 18 ≤ buf.length) :
    (parseCommFields ieee d buf).byteOrder =
      if d.Form = aifcID ∧ 22 ≤ buf.length ∧ fourCCOf ((buf.drop 18).take 4) = encSowt
      then ByteOrder.le else d.byteOrder := by
  have e1 := bufRead_pos buf 2 (by omega)
  have e2 := bufRead_pos (buf.drop 2) 4 (by simp; omega)
  have e3 := bufRead_pos (buf.drop 6) 2 (by simp; omega)
  have e4 := bufRead_pos (buf.drop 8) 10 (by simp; omega)
  simp only [parseCommFields, e1, e2, e3, e4, List.drop_drop, Nat.reduceAdd]
  by_cases hform : d.Form = aifcID
  · rw [if_pos hform]
    by_cases h22 : 22 ≤ buf.length
    · have e5 := bufRead_pos (buf.drop 18) 4 (by simp; omega)
      simp only [e5]
      by_cases hsowt : fourCCOf ((buf.drop 18).take 4) = encSowt
      · rw [if_pos hsowt, if_pos ⟨hform, h22, hsowt⟩]
        exact (parseCommName_byteOrder _ _).trans rfl
      · rw [if_neg hsowt, if_neg (by rintro ⟨-, -, h⟩; exact hsowt h)]
        exact (parseCommName_byteOrder _ _).trans rfl
    · have e5 : bufRead (buf.drop 18) 4 = none := by
        simp [bufRead]; omega
      simp only [e5]
      rw [if_neg (by rintro ⟨-, h, -⟩; omega)]
  · rw [if_neg hform, if_neg (by rintro ⟨h, -, -⟩; exact hform h)]

/-- Parsing a COMM chunk whose full payload sits at the cursor: the stream
advances exactly past the payload and the fields are decoded from it. -/
theorem parseCommChunk_at (ieee : List Byte → Int) (d : Decoder)
    (pre payload post : List Byte) (hch : d.NumChans = 0) :
    parseCommChunk ieee d ⟨pre ++ payload ++ post, pre.length⟩ payload.length =
      (parseCommFields ieee { d with commSize := payload.length } payload,
       ⟨pre ++ payload ++ post, pre.length + payload.length⟩,
       (parseCommFields ieee { d with commSize := payload.length } payload).err) := by
  unfold parseCommChunk
  rw [if_neg (by omega : ¬ 0 < d.NumChans)]
  have havail : Stream.avail ⟨pre ++ payload ++ post, pre.length⟩ =
      payload.length + post.length := by
    simp [Stream.avail, seg_length]
  have hmin : min payload.length (Stream.avail ⟨pre ++ payload ++ post, pre.length⟩) =
      payload.length := by
    rw [havail]; omega
  simp only [hmin, seg_extract]

/-- Wrapping an error with the NextChunk wrap never yields the error back. -/
theorem failedReadInfo_neq (e : DErr) : DErr.failedReadInfo e ≠ e := by
  intro h
  have h2 := congrArg sizeOf h
  simp only [DErr.failedReadInfo.sizeOf_spec] at h2
  omega

/-- C7: the format-info read is idempotent: once the sample rate is set,
`ReadInfo` returns the decoder and stream unchanged (no further reads), and
once the FORM size field is non-zero, `readHeaders` returns unchanged state
with a nil error (the 12-byte header is never re-read). -/
theorem c7_readinfo_idempotent (ieee : List Byte → Int) (fuel : Nat)
    (d : Decoder) (s : Stream) :
    (0 < d.SampleRate → ReadInfo ieee fuel d s = (d, s)) ∧
    (0 < d.Size → readHeaders d s = (d, s, none)) := by
  constructor
  · intro h
    simp [ReadInfo, h]
  · intro h
    simp [readHeaders, h]

/-- Witness for C7 at a concrete decoder whose sample rate and size are set. -/
theorem c7_witness :
    ReadInfo (fun _ => 0) 3 { NewDecoder with SampleRate := 44100, Size := 30 } ⟨[1, 2, 3], 0⟩ =
      ({ NewDecoder with SampleRate := 44100, Size := 30 }, ⟨[1, 2, 3], 0⟩) ∧
    readHeaders { NewDecoder with SampleRate := 44100, Size := 30 } ⟨[1, 2, 3], 0⟩ =
      ({ NewDecoder with SampleRate := 44100, Size := 30 }, ⟨[1, 2, 3], 0⟩, none) :=
  ⟨(c7_readinfo_idempotent (fun _ => 0) 3 _ _).1 (by decide),
   (c7_readinfo_idempotent (fun _ => 0) 3 _ _).2 (by decide)⟩

/-- C8 counterexample: with a stored non-EOF error (and the format known),
`NextChunk` does not return that same error — it returns a wrapped one. -/
theorem c8_counterexample :
    (NextChunk (fun _ => 0) 1 { NewDecoder with err := some (.msg "boom"), SampleRate := 1 }
        ⟨[], 0⟩).2.2.2 ≠ some (.msg "boom") := by
  decide

/-- C8 amended: once the decoder's error is a non-EOF error and the format
is known (sample rate set, so the re-entrant scan cannot overwrite it),
`Err`, `Drain` and `Duration` return exactly that error without touching the
stream; `NextChunk` also performs no reads but returns and stores a wrapped
version of the error (never the error itself); and `Reset` clears the error
state. -/
theorem c8_sticky_error_amended (ieee : List Byte → Int) (fuel : Nat)
    (d : Decoder) (s s2 : Stream) (e : DErr)
    (he : d.err = some e) (hne : e ≠ .eof) (hsr : 0 < d.SampleRate) :
    Err d = some e ∧
    Drain ieee fuel d s = (d, s, some e) ∧
    Duration ieee fuel (some d) s = (some d, s, 0, some e) ∧
    NextChunk ieee fuel d s =
      (none, { d with err := some (.failedReadInfo e) }, s, some (.failedReadInfo e)) ∧
    DErr.failedReadInfo e ≠ e ∧
    (Reset d s2).1.err = none := by
  have herr : Err d = some e := by
    simp [Err, he]
    intro h
    exact absurd h hne
  refine ⟨herr, ?_, ?_, ?_, failedReadInfo_neq e, rfl⟩
  · cases fuel <;> simp [Drain, he]
  · simp [Duration, ReadInfo, hsr, herr]
  · simp [NextChunk, ReadInfo, hsr, he]

/-- Witness for C8 at a concrete decoder carrying a non-EOF error. -/
theorem c8_witness :
    Err { NewDecoder with err := some (.msg "boom"), SampleRate := 1 } = some (.msg "boom") ∧
    Drain (fun _ => 0) 2 { NewDecoder with err := some (.msg "boom"), SampleRate := 1 } ⟨[], 0⟩ =
      ({ NewDecoder with err := some (.msg "boom"), SampleRate := 1 }, ⟨[], 0⟩,
        some (.msg "boom")) ∧
    Duration (fun _ => 0) 2 (some { NewDecoder with err := some (.msg "boom"), SampleRate := 1 })
        ⟨[], 0⟩ =
      (some { NewDecoder with err := some (.msg "boom"), SampleRate := 1 }, ⟨[], 0⟩, 0,
        some (.msg "boom")) ∧
    NextChunk (fun _ => 0) 2 { NewDecoder with err := some (.msg "boom"), SampleRate := 1 }
        ⟨[], 0⟩ =
      (none,
        { NewDecoder with err := some (.failedReadInfo (.msg "boom")), SampleRate := 1 },
        ⟨[], 0⟩, some (.failedReadInfo (.msg "boom"))) ∧
    DErr.failedReadInfo (.msg "boom") ≠ .msg "boom" ∧
    (Reset { NewDecoder with err := some (.msg "boom"), SampleRate := 1 } ⟨[], 0⟩).1.err = none :=
  c8_sticky_error_amended (fun _ => 0) 2 _ ⟨[], 0⟩ ⟨[], 0⟩ (.msg "boom") rfl
    (by decide) (by decide)

/-- C9 counterexample: `Reset` does not clear the comment list back to its
initial (empty) value, refuting the claim that all parsed decoder state is
cleared. -/
theorem c9_counterexample :
    (Reset { NewDecoder with Comments := [[120]] } ⟨[1, 2], 2⟩).1.Comments = [[120]] ∧
    ([[120]] : List (List Byte)) ≠ [] := by
  exact ⟨rfl, by decide⟩

/-- C9 amended: `Reset` rewinds the stream to byte zero and clears the
header fields, the COMM-derived fields, the error state and the
PCM-accessed flag — but it leaves the comments, the Apple metadata, the PCM
chunk handle and size, the byte order and the rewind counter untouched. -/
theorem c9_reset_amended (d : Decoder) (s : Stream) :
    (Reset d s).2.pos = 0 ∧
    (Reset d s).2.data = s.data ∧
    (Reset d s).1.ID = FourCC.zero ∧
    (Reset d s).1.Size = 0 ∧
    (Reset d s).1.Form = FourCC.zero ∧
    (Reset d s).1.commSize = 0 ∧
    (Reset d s).1.NumChans = 0 ∧
    (Reset d s).1.NumSampleFrames = 0 ∧
    (Reset d s).1.BitDepth = 0 ∧
    (Reset d s).1.SampleRate = 0 ∧
    (Reset d s).1.Encoding = FourCC.zero ∧
    (Reset d s).1.EncodingName = [] ∧
    (Reset d s).1.err = none ∧
    (Reset d s).1.pcmDataAccessed = false ∧
    (Reset d s).1.Comments = d.Comments ∧
    (Reset d s).1.HasAppleInfo = d.HasAppleInfo ∧
    (Reset d s).1.AppleInfo = d.AppleInfo ∧
    (Reset d s).1.PCMSize = d.PCMSize ∧
    (Reset d s).1.PCMChunk = d.PCMChunk ∧
    (Reset d s).1.byteOrder = d.byteOrder ∧
    (Reset d s).1.rewindBytes = d.rewindBytes := by
  refine ⟨rfl, rfl, rfl, rfl, rfl, rfl, rfl, rfl, rfl, rfl, rfl, rfl, rfl, rfl,
    rfl, rfl, rfl, rfl, rfl, rfl, rfl⟩

/-- C10: every query on a nil decoder pointer returns its harmless zero
result: bit depth 0, PCM length 0, PCM-accessed false, nil format, a
duration error and tempo -1. -/
theorem c10_nil_decoder_queries (ieee : List Byte → Int) (fuel : Nat) (s : Stream) :
    SampleBitDepth none = 0 ∧
    PCMLen none = 0 ∧
    WasPCMAccessed none = false ∧
    Format none = none ∧
    (Duration ieee fuel none s).2.2.2 =
      some (.msg "cannot calculate the duration of a nil pointer") ∧
    (Tempo ieee fuel none s).2.2 = -1 :=
  ⟨rfl, rfl, rfl, rfl, rfl, rfl⟩

/-- C4: a decoder's PCM byte order is big-endian by default (`NewDecoder`)
and parsing a COMM chunk whose payload is fully present switches it to
little-endian exactly when the container form is AIFC and the four
compression-type code bytes of the payload read sowt; the order is part of
the decoded state, not a per-call parameter. -/
theorem c4_sowt_byte_order (ieee : List Byte → Int) (d : Decoder)
    (pre payload post : List Byte) (hbo : d.byteOrder = .be) (hch : d.NumChans = 0)
    (hlen : 18 ≤ payload.length) :
    NewDecoder.byteOrder = .be ∧
    ((parseCommChunk ieee d ⟨pre ++ payload ++ post, pre.length⟩
          payload.length).1.byteOrder = .le ↔
      (d.Form = aifcID ∧ 22 ≤ payload.length ∧
        fourCCOf ((payload.drop 18).take 4) = encSowt)) := by
  refine ⟨rfl, ?_⟩
  rw [parseCommChunk_at ieee d pre payload post hch]
  dsimp only
  rw [parseCommFields_byteOrder ieee _ payload hlen]
  dsimp only
  rw [hbo]
  by_cases hcond : d.Form = aifcID ∧ 22 ≤ payload.length ∧
      fourCCOf ((payload.drop 18).take 4) = encSowt
  · rw [if_pos hcond]
    simp [hcond]
  · rw [if_neg hcond]
    simp [hcond]

/-- Witness for C4: a concrete AIFC COMM payload carrying the sowt code
flips the byte order of a fresh decoder to little-endian. -/
theorem c4_witness :
    (parseCommChunk (fun _ => 44100) { NewDecoder with Form := aifcID }
        ⟨[] ++ ([0, 1, 0, 0, 0, 5, 0, 16] ++ List.replicate 10 0 ++
            [115, 111, 119, 116]) ++ [],
          List.length ([] : List Byte)⟩
        ([0, 1, 0, 0, 0, 5, 0, 16] ++ List.replicate 10 0 ++
            [115, 111, 119, 116]).length).1.byteOrder = .le :=
  (c4_sowt_byte_order (fun _ => 44100) { NewDecoder with Form := aifcID } []
      ([0, 1, 0, 0, 0, 5, 0, 16] ++ List.replicate 10 0 ++ [115, 111, 119, 116]) []
      rfl rfl (by decide)).2.mpr ⟨rfl, by decide, by decide⟩

/-- C2 counterexample: dispatching an unknown 10-byte chunk on a fresh
decoder (format unknown) adds only 10 to the drain-phase rewind counter, not
the 18 the claim (size plus 8 header bytes, as in the scan phase) predicts. -/
theorem c2_counterexample :
    (parseChunk (fun _ => 0) NewDecoder ⟨List.replicate 30 0, 0⟩
        (some ⟨⟨88, 88, 88, 88⟩, 10, 0⟩)).1.rewindBytes = 10 ∧
    (10 : Nat) ≠ 10 + 8 := by
  exact ⟨by decide, by decide⟩

/-- C2 amended: in the drain-phase dispatch, an unrecognized chunk seen
while the format is still unknown adds exactly its (pad-adjusted) size to
the rewind counter — without the extra 8 header bytes the scan phase adds —
and is skipped; and when a COMM chunk is then parsed with a positive rewind
counter, the stream is seeked backward by exactly that counter, which is
reset to zero. -/
theorem c2_drain_rewind_amended (ieee : List Byte → Int) :
    (∀ (d : Decoder) (s : Stream) (ch : Chunk),
      ch.id ∉ [COMMID, SSNDID, COMTID, bascID, chanID, trnsID, cateID] →
      d.SampleRate = 0 →
      parseChunk ieee d s (some ch) =
        ({ d with rewindBytes := d.rewindBytes + ch.size },
         { s with pos := s.pos + min (ch.size - ch.pos) s.avail }, none)) ∧
    (∀ (d : Decoder) (pre payload post : List Byte) (ch : Chunk),
      ch.id = COMMID → ch.size = payload.length →
      d.commSize = 0 → d.NumChans = 0 → d.Form ≠ aifcID → 18 ≤ payload.length →
      0 < d.rewindBytes →
      (parseChunk ieee d ⟨pre ++ payload ++ post, pre.length⟩ (some ch)).2.1.pos =
        pre.length + payload.length - d.rewindBytes ∧
      (parseChunk ieee d ⟨pre ++ payload ++ post, pre.length⟩ (some ch)).1.rewindBytes
        = 0) := by
  constructor
  · intro d s ch hmem hsr
    simp only [List.mem_cons, List.mem_singleton, not_or] at hmem
    obtain ⟨h1, h2, h3, h4, h5, h6, h7, -⟩ := hmem
    simp [parseChunk, chunkDone, h1, h2, h3, h4, h5, h6, h7, hsr]
  · intro d pre payload post ch hid hsize hcs hnc hform hlen hrw
    have hfields := parseCommFields_aiff ieee { d with commSize := payload.length }
      payload hform hlen
    have hcomm := parseCommChunk_at ieee d pre payload post hnc
    obtain ⟨cid, csz, cpos⟩ := ch
    simp only at hid hsize
    subst hid
    subst hsize
    unfold parseChunk
    dsimp only
    rw [if_pos rfl, if_neg (show ¬ 0 < d.commSize by omega), hcomm, hfields]
    dsimp only
    rw [if_pos hrw]
    exact ⟨rfl, rfl⟩

/-- Witness for C2: the unknown-chunk clause at a fresh decoder and the
COMM clause at a decoder with rewind counter 5. -/
theorem c2_witness :
    parseChunk (fun _ => 0) NewDecoder ⟨List.replicate 12 0, 0⟩
        (some ⟨⟨1, 2, 3, 4⟩, 10, 0⟩) =
      ({ NewDecoder with rewindBytes := 10 }, ⟨List.replicate 12 0, 10⟩, none) ∧
    (parseChunk (fun _ => 44100) { NewDecoder with rewindBytes := 5 }
        ⟨[] ++ ([0, 1, 0, 0, 0, 5, 0, 16] ++ List.replicate 10 0) ++ [],
          List.length ([] : List Byte)⟩
        (some ⟨COMMID, 18, 0⟩)).2.1.pos = 13 ∧
    (parseChunk (fun _ => 44100) { NewDecoder with rewindBytes := 5 }
        ⟨[] ++ ([0, 1, 0, 0, 0, 5, 0, 16] ++ List.replicate 10 0) ++ [],
          List.length ([] : List Byte)⟩
        (some ⟨COMMID, 18, 0⟩)).1.rewindBytes = 0 := by
  have h1 := (c2_drain_rewind_amended (fun _ => 0)).1 NewDecoder
    ⟨List.replicate 12 0, 0⟩ ⟨⟨1, 2, 3, 4⟩, 10, 0⟩ (by decide) rfl
  have h2 := (c2_drain_rewind_amended (fun _ => 44100)).2
    { NewDecoder with rewindBytes := 5 } []
    ([0, 1, 0, 0, 0, 5, 0, 16] ++ List.replicate 10 0) [] ⟨COMMID, 18, 0⟩
    rfl (by decide) rfl rfl (by decide) (by decide) (by decide)
  exact ⟨by simpa using h1, h2.1, h2.2⟩

/-- C5: a chunk header declaring an odd size z yields a chunk whose
effective size is z + 1 (`NextChunk` realigns), so that fully draining the
chunk skips exactly one pad byte beyond the declared size and the stream
lands on the next chunk header. -/
theorem c5_odd_size_padding (ieee : List Byte → Int) (fuel : Nat) (d : Decoder)
    (pre payload rest : List Byte) (idb : FourCC) (z : Nat)
    (hsr : 0 < d.SampleRate) (herr : d.err = none) (hz : z < 4294967296)
    (hodd : z % 2 = 1) (hlen : payload.length = z + 1) :
    NextChunk ieee fuel d
        ⟨pre ++ (idb.bytes ++ u32be z) ++ (payload ++ rest), pre.length⟩ =
      (some ⟨idb, z + 1, 0⟩, { d with err := none },
        ⟨pre ++ (idb.bytes ++ u32be z) ++ (payload ++ rest), pre.length + 8⟩, none) ∧
    (chunkDone ⟨idb, z + 1, 0⟩
        ⟨pre ++ (idb.bytes ++ u32be z) ++ (payload ++ rest), pre.length + 8⟩).2.pos =
      pre.length + 8 + (z + 1) := by
  constructor
  · have hri : ReadInfo ieee fuel d
        ⟨pre ++ (idb.bytes ++ u32be z) ++ (payload ++ rest), pre.length⟩ =
        (d, ⟨pre ++ (idb.bytes ++ u32be z) ++ (payload ++ rest), pre.length⟩) := by
      simp [ReadInfo, hsr]
    unfold NextChunk
    rw [hri]
    dsimp only
    rw [herr]
    rw [iDnSize_at pre (payload ++ rest) idb z hz]
    dsimp only
    rw [hodd]
  · have hL := seg_length pre (idb.bytes ++ u32be z) (payload ++ rest)
    have hmid : (idb.bytes ++ u32be z).length = 8 := rfl
    simp only [chunkDone, Stream.avail, hL, hmid]
    simp only [List.length_append]
    omega

/-- Witness for C5 at a concrete 3-byte chunk followed by its pad byte. -/
theorem c5_witness :
    NextChunk (fun _ => 0) 1 { NewDecoder with SampleRate := 8000 }
        ⟨[9, 9] ++ (FourCC.bytes ⟨1, 2, 3, 4⟩ ++ u32be 3) ++ ([5, 6, 7, 0] ++ [8]),
          List.length [9, 9]⟩ =
      (some ⟨⟨1, 2, 3, 4⟩, 3 + 1, 0⟩,
        { NewDecoder with SampleRate := 8000, err := none },
        ⟨[9, 9] ++ (FourCC.bytes ⟨1, 2, 3, 4⟩ ++ u32be 3) ++ ([5, 6, 7, 0] ++ [8]),
          List.length [9, 9] + 8⟩, none) ∧
    (chunkDone ⟨⟨1, 2, 3, 4⟩, 3 + 1, 0⟩
        ⟨[9, 9] ++ (FourCC.bytes ⟨1, 2, 3, 4⟩ ++ u32be 3) ++ ([5, 6, 7, 0] ++ [8]),
          List.length [9, 9] + 8⟩).2.pos = List.length [9, 9] + 8 + (3 + 1) :=
  c5_odd_size_padding (fun _ => 0) 1 { NewDecoder with SampleRate := 8000 }
    [9, 9] [5, 6, 7, 0] [8] ⟨1, 2, 3, 4⟩ 3 (by decide) rfl (by decide) (by decide)
    (by decide)

/-- Taking the just-written prefix of the scratch buffer returns the bytes
that were read. -/
theorem take_append_take (r buf : List Byte) (k : Nat) (h : k ≤ r.length) :
    (r.take k ++ buf.drop k).take k = r.take k := by
  rw [List.take_append_of_le_length (by simp; omega), List.take_take]
  simp

/-- Head of the scratch buffer after reading at least one byte. -/
theorem take_append_headD (r buf : List Byte) (h : 1 ≤ r.length) :
    (r.take 1 ++ buf.drop 1).headD 0 = r.headD 0 := by
  cases r with
  | nil => simp at h
  | cons a t => simp

/-- C3: for every bit depth in {8, 16, 24, 32} and either byte order,
`sampleDecodeFunc` returns a decode function that consumes exactly
depth / 8 bytes and produces the sample value of those bytes — the unsigned
byte itself at depth 8, the signed (two's-complement) value of the
byte-order-assembled integer at 16 and 32, and the sign-extended manual
three-byte assembly at 24; for any other depth it returns an error naming
the offending depth (and no decode function). -/
theorem c3_sample_decode_table (bo : ByteOrder) :
    (∃ f, sampleDecodeFunc 8 bo = .ok f ∧
      DecodesExactly f 1 (fun b => (b.headD 0 : Int))) ∧
    (∃ f, sampleDecodeFunc 16 bo = .ok f ∧
      DecodesExactly f 2 (fun b => sint 16 (beValOrd bo b))) ∧
    (∃ f, sampleDecodeFunc 24 bo = .ok f ∧
      DecodesExactly f 3 (fun b =>
        if bo = .be then Int24BETo32 b else Int24LETo32 b)) ∧
    (∃ f, sampleDecodeFunc 32 bo = .ok f ∧
      DecodesExactly f 4 (fun b => sint 32 (beValOrd bo b))) ∧
    (∀ dep : Nat, dep ∉ [8, 16, 24, 32] →
      sampleDecodeFunc dep bo = .error (toString dep ++ " bit depth not supported")) := by
  have herror : ∀ dep : Nat, dep ∉ [8, 16, 24, 32] →
      sampleDecodeFunc dep bo = .error (toString dep ++ " bit depth not supported") := by
    intro dep hmem
    simp only [List.mem_cons, List.mem_singleton, not_or] at hmem
    obtain ⟨h8, h16, h24, h32, -⟩ := hmem
    simp [sampleDecodeFunc, h8, h16, h24, h32]
  have h8 : ∃ f, sampleDecodeFunc 8 bo = .ok f ∧
      DecodesExactly f 1 (fun b => (b.headD 0 : Int)) := by
    refine ⟨_, rfl, ?_⟩
    intro r buf hr hb
    obtain ⟨a, t, rfl⟩ : ∃ a t, r = a :: t := by
      cases r with
      | nil => simp at hr
      | cons a t => exact ⟨a, t, rfl⟩
    refine ⟨?_, ?_, ?_⟩ <;> simp [bufsRead]
  have h16 : ∃ f, sampleDecodeFunc 16 bo = .ok f ∧
      DecodesExactly f 2 (fun b => sint 16 (beValOrd bo b)) := by
    refine ⟨_, rfl, ?_⟩
    intro r buf hr hb
    have hmin : min 2 r.length = 2 := by omega
    have hne : ¬ (r.length = 0) := by omega
    refine ⟨?_, ?_, ?_⟩ <;>
      simp [bufsRead, hmin, hne, take_append_take r buf 2 hr]
  have h32 : ∃ f, sampleDecodeFunc 32 bo = .ok f ∧
      DecodesExactly f 4 (fun b => sint 32 (beValOrd bo b)) := by
    refine ⟨_, rfl, ?_⟩
    intro r buf hr hb
    have hmin : min 4 r.length = 4 := by omega
    have hne : ¬ (r.length = 0) := by omega
    refine ⟨?_, ?_, ?_⟩ <;>
      simp [bufsRead, hmin, hne, take_append_take r buf 4 hr]
  have h24 : ∃ f, sampleDecodeFunc 24 bo = .ok f ∧
      DecodesExactly f 3 (fun b =>
        if bo = .be then Int24BETo32 b else Int24LETo32 b) := by
    cases bo with
    | be =>
      refine ⟨_, rfl, ?_⟩
      intro r buf hr hb
      have hmin : min 3 r.length = 3 := by omega
      have hne : ¬ (r.length = 0) := by omega
      refine ⟨?_, ?_, ?_⟩ <;>
        simp [bufsRead, hmin, hne, take_append_take r buf 3 hr]
    | le =>
      refine ⟨_, rfl, ?_⟩
      intro r buf hr hb
      have hmin : min 3 r.length = 3 := by omega
      have hne : ¬ (r.length = 0) := by omega
      refine ⟨?_, ?_, ?_⟩ <;>
        simp [bufsRead, hmin, hne, take_append_take r buf 3 hr]
  exact ⟨h8, h16, h24, h32, herror⟩

/-- Witness for C3: the 16-bit big-endian decoder consumes exactly the two
bytes of a two-byte reader and decodes 0x0102, and depth 10 is rejected by
name. -/
theorem c3_witness :
    (∃ f, sampleDecodeFunc 16 .be = .ok f ∧
      (f [1, 2] [0, 0]).rest = [] ∧ (f [1, 2] [0, 0]).err = false ∧
      (f [1, 2] [0, 0]).val = 258) ∧
    sampleDecodeFunc 10 .be = .error "10 bit depth not supported" := by
  obtain ⟨-, ⟨f, hf, hD⟩, -, -, herr⟩ := c3_sample_decode_table .be
  obtain ⟨h1, h2, h3⟩ := hD [1, 2] [0, 0] (by decide) (by decide)
  exact ⟨⟨f, hf, h1, h2, by rw [h3]; decide⟩, herr 10 (by decide)⟩

/-- Dropping the clamped count equals dropping the requested count. -/
theorem drop_min (r : List Byte) (k : Nat) : r.drop (min k r.length) = r.drop k := by
  rcases Nat.le_total k r.length with h | h
  · rw [Nat.min_eq_left h]
  · rw [Nat.min_eq_right h, List.drop_length, List.drop_eq_nil_of_le h]

/-- Every decode function the codec table returns satisfies the step
specification at its width. -/
theorem sampleDecodeFunc_step (bo : ByteOrder) (dep : Nat) (f : DecodeF)
    (hdep : dep ∈ ([8, 16, 24, 32] : List Nat))
    (hf : sampleDecodeFunc dep bo = .ok f) :
    DecodeStepSpec f (dep / 8) := by
  simp only [List.mem_cons, List.mem_singleton] at hdep
  have step8 : dep = 8 → DecodeStepSpec f 1 := by
    intro h
    subst h
    simp only [sampleDecodeFunc, Except.ok.injEq] at hf
    norm_num at hf
    intro r buf hb
    subst hf
    refine ⟨?_, ?_, ?_⟩
    · simp [bufsRead, drop_min]
    · simp [bufsRead]
    · simp [bufsRead, hb]
  have step16 : dep = 16 → DecodeStepSpec f 2 := by
    intro h
    subst h
    simp only [sampleDecodeFunc, Except.ok.injEq] at hf
    norm_num at hf
    intro r buf hb
    subst hf
    refine ⟨?_, ?_, ?_⟩
    · simp [bufsRead, drop_min]
    · simp [bufsRead]
    · simp [bufsRead, hb]
  have step32 : dep = 32 → DecodeStepSpec f 4 := by
    intro h
    subst h
    simp only [sampleDecodeFunc, Except.ok.injEq] at hf
    norm_num at hf
    intro r buf hb
    subst hf
    refine ⟨?_, ?_, ?_⟩
    · simp [bufsRead, drop_min]
    · simp [bufsRead]
    · simp [bufsRead, hb]
  have step24 : dep = 24 → DecodeStepSpec f 3 := by
    intro h
    subst h
    simp only [sampleDecodeFunc, Except.ok.injEq] at hf
    norm_num at hf
    cases bo with
    | be =>
      simp at hf
      intro r buf hb
      subst hf
      by_cases hre : r.length = 0
      · have hnil : r = [] := List.length_eq_zero.mp hre
        subst hnil
        refine ⟨?_, ?_, ?_⟩ <;> simp [bufsRead, hb]
      · refine ⟨?_, ?_, ?_⟩ <;> simp [bufsRead, drop_min, hre, hb]
    | le =>
      simp at hf
      intro r buf hb
      subst hf
      by_cases hre : r.length = 0
      · have hnil : r = [] := List.length_eq_zero.mp hre
        subst hnil
        refine ⟨?_, ?_, ?_⟩ <;> simp [bufsRead, hb]
      · refine ⟨?_, ?_, ?_⟩ <;> simp [bufsRead, drop_min, hre, hb]
  rcases hdep with h | h | h | h | h
  · simpa [h] using step8 h
  · simpa [h] using step16 h
  · simpa [h] using step24 h
  · simpa [h] using step32 h
  · simp at h

/-- Ceiling division collapses on exact multiples. -/
theorem ceil_div_dvd (b m : Nat) (hb : 0 < b) (h : b ∣ m) :
    (m + b - 1) / b = m / b := by
  obtain ⟨q, rfl⟩ := h
  have h1 : b * q + b - 1 = b * q + (b - 1) := by omega
  rw [h1, Nat.mul_add_div hb, Nat.div_eq_of_lt (by omega),
    Nat.mul_div_cancel_left q hb]
  omega

/-- Ceiling division adds one off exact multiples. -/
theorem ceil_div_not_dvd (b m : Nat) (hb : 0 < b) (h : ¬ b ∣ m) :
    (m + b - 1) / b = m / b + 1 := by
  have hmod := Nat.div_add_mod m b
  have hlt : m % b < b := Nat.mod_lt m hb
  have hpos : 0 < m % b :=
    Nat.pos_of_ne_zero (fun h0 => h (Nat.dvd_of_mod_eq_zero h0))
  have hexp : b * (m / b + 1) = b * (m / b) + b := by ring
  have h1 : m + b - 1 = b * (m / b + 1) + (m % b - 1) := by omega
  rw [h1, Nat.mul_add_div hb, Nat.div_eq_of_lt (show m % b - 1 < b by omega)]

/-- Counting lemma for the PCMBuffer decode loop: with a decode function
obeying the step specification, the loop fills all `L` slots when the block
holds at least that many (possibly partial) samples, and otherwise decodes
every sample the block started (the trailing partial one included) and then
discounts one when the block was misaligned. -/
theorem pcmFill_count (f : DecodeF) (k : Nat) (mis : Bool) (L : Nat)
    (hf : DecodeStepSpec f k) (hk : 0 < k) :
    ∀ (rem n : Nat) (r buf : List Byte), L - n = rem → n ≤ L → buf.length = k →
    pcmFillGo f mis rem n r buf =
      if L ≤ n + (r.length + k - 1) / k then (L : Int)
      else ((n : Int) + ((r.length + k - 1) / k : Nat)) -
        (if mis then 1 else 0) := by
  intro rem
  induction rem with
  | zero =>
    intro n r buf hm hn hb
    have hnL : n = L := by omega
    have hle : L ≤ n + (r.length + k - 1) / k := by
      rw [hnL]
      exact Nat.le_add_right L _
    rw [pcmFillGo, if_pos hle]
    simp [hnL]
  | succ rem ih =>
    intro n r buf hm hn hb
    have hnL : n < L := by omega
    rw [pcmFillGo]
    obtain ⟨hrest, herr, hlen⟩ := hf r buf hb
    by_cases hre : r.length = 0
    · have htrue : (f r buf).err = true := by
        rw [herr]
        simp [hre]
      rw [if_pos htrue]
      have hC : (r.length + k - 1) / k = 0 := by
        rw [hre]
        exact Nat.div_eq_of_lt (by omega)
      rw [if_neg (show ¬ (L ≤ n + (r.length + k - 1) / k) by omega)]
      cases mis <;> simp [hC]
    · have hfalse : ¬ ((f r buf).err = true) := by
        rw [herr]
        simp [hre]
      rw [if_neg hfalse, hrest,
        ih (n + 1) (r.drop k) (f r buf).scratch (show L - (n + 1) = rem by omega)
          (show n + 1 ≤ L by omega) hlen]
      have hdl : (r.drop k).length = r.length - k := by simp
      rcases Nat.le_total k r.length with hkr | hkr
      · have h1 : r.length - k + k - 1 = r.length - 1 := by omega
        have h2 : r.length + k - 1 = (r.length - 1) + k := by omega
        rw [hdl, h1, h2, Nat.add_div_right _ hk]
        have h3 : n + 1 + (r.length - 1) / k = n + ((r.length - 1) / k + 1) := by
          omega
        rw [h3]
        congr 1
        push_cast
        ring
      · have h1 : (r.length - k + k - 1) / k = 0 := Nat.div_eq_of_lt (by omega)
        have h2 : (r.length + k - 1) / k = 1 := by
          refine Nat.div_eq_of_lt_le (by omega) (by omega)
        rw [hdl, h1, h2]
        push_cast
        norm_num

/-- C6 counterexample: with 16-bit samples, a 3-slot buffer and 5 raw bytes,
the partial trailing sample fills the final slot and is counted: the call
returns 3 although only 2 whole samples exist in the bytes read, refuting
the unconditional "partial trailing sample is discarded" claim. -/
theorem c6_counterexample :
    (PCMBuffer { NewDecoder with BitDepth := 16 } [0, 1, 0, 2, 9] 3).1 = 3 ∧
    min (3 * bytesPerSample 16) 5 / bytesPerSample 16 = 2 ∧
    (3 : Int) ≠ 2 := by
  exact ⟨by decide, by decide, by decide⟩

/-- C6 amended: a `PCMBuffer` call with an `L`-slot buffer reads at most
`L * bytesPerSample` raw bytes (`m` is what the single block read gets),
reports exhaustion of the PCM chunk as a nil error with count 0, never
returns an error from the decode loop, and returns the decoded count: all
`min L (m / b)` whole samples when the block is aligned; `m / b` when it is
misaligned and the decode loop reaches the end of the block before the
buffer fills (the partial trailing sample is discarded); but `L` — counting
the garbage partial sample — when the partial sample lands exactly in the
final buffer slot. -/
theorem c6_pcmbuffer_amended (d : Decoder) (pcm : List Byte) (L b m : Nat)
    (hdep : d.BitDepth ∈ ([8, 16, 24, 32] : List Nat))
    (hb : b = bytesPerSample d.BitDepth)
    (hm : m = min (L * b) pcm.length) :
    (pcm = [] → PCMBuffer d pcm L = (0, none, pcm)) ∧
    m ≤ L * b ∧
    (PCMBuffer d pcm L).2.2 = pcm.drop m ∧
    (PCMBuffer d pcm L).2.1 = none ∧
    (b ∣ m → (PCMBuffer d pcm L).1 = (min L (m / b) : Nat)) ∧
    (¬ b ∣ m → m / b + 1 < L → (PCMBuffer d pcm L).1 = (m / b : Nat)) ∧
    (¬ b ∣ m → m / b + 1 = L → (PCMBuffer d pcm L).1 = (L : Nat)) := by
  obtain ⟨f, hfok⟩ : ∃ f, sampleDecodeFunc d.BitDepth d.byteOrder = Except.ok f := by
    have hdep2 := hdep
    simp only [List.mem_cons, List.mem_singleton] at hdep2
    rcases hdep2 with h | h | h | h | h
    · rw [h]; exact ⟨_, rfl⟩
    · rw [h]; exact ⟨_, rfl⟩
    · rw [h]; cases d.byteOrder <;> exact ⟨_, rfl⟩
    · rw [h]; exact ⟨_, rfl⟩
    · simp at h
  have hk : 0 < b := by
    rw [hb]
    have hdep2 := hdep
    simp only [List.mem_cons, List.mem_singleton] at hdep2
    rcases hdep2 with h | h | h | h | h
    · rw [h]; decide
    · rw [h]; decide
    · rw [h]; decide
    · rw [h]; decide
    · simp at h
  have hstep : DecodeStepSpec f b := by
    have hsp := sampleDecodeFunc_step d.byteOrder d.BitDepth f hdep hfok
    have hb2 : b = d.BitDepth / 8 := by simpa [bytesPerSample] using hb
    rw [← hb2] at hsp
    exact hsp
  have hPCM : PCMBuffer d pcm L =
      (if pcm.length = 0 then ((0 : Int), none, pcm)
       else if m = 0 then ((0 : Int), none, pcm)
       else (pcmFill f L (decide (0 < m % b)) 0 (pcm.take m) (List.replicate b 0),
             none, pcm.drop m)) := by
    unfold PCMBuffer
    rw [hfok]
    dsimp only
    rw [← hb, ← hm]
  have hcount : ¬ pcm.length = 0 → ¬ m = 0 →
      (PCMBuffer d pcm L).1 =
        (if L ≤ (m + b - 1) / b then (L : Int)
         else ((0 : Int) + ((m + b - 1) / b : Nat)) -
           (if decide (0 < m % b) then 1 else 0)) := by
    intro h0 hm0
    rw [hPCM, if_neg h0, if_neg hm0]
    dsimp only
    have hlen : (pcm.take m).length = m := by
      simp
      omega
    unfold pcmFill
    rw [pcmFill_count f b (decide (0 < m % b)) L hstep hk (L - 0) 0 (pcm.take m)
      (List.replicate b 0) rfl (by omega) (by simp), hlen]
    norm_num
  refine ⟨?_, by omega, ?_, ?_, ?_, ?_, ?_⟩
  · intro h
    subst h
    simp [hPCM]
  · by_cases h0 : pcm.length = 0
    · have hnil : pcm = [] := List.length_eq_zero.mp h0
      subst hnil
      simp [hPCM]
    · by_cases hm0 : m = 0
      · simp [hPCM, h0, hm0]
      · simp [hPCM, h0, hm0]
  · by_cases h0 : pcm.length = 0
    · simp [hPCM, h0]
    · by_cases hm0 : m = 0
      · simp [hPCM, h0, hm0]
      · simp [hPCM, h0, hm0]
  · intro hdvd
    by_cases hm0 : m = 0
    · by_cases h0 : pcm.length = 0 <;> simp [hPCM, h0, hm0]
    · have h0 : ¬ pcm.length = 0 := by omega
      rw [hcount h0 hm0, ceil_div_dvd b m hk hdvd]
      have hmod : m % b = 0 := Nat.mod_eq_zero_of_dvd hdvd
      rcases Nat.lt_or_ge (m / b) L with hlt | hge
      · rw [if_neg (show ¬ L ≤ m / b by omega)]
        simp [hmod, Nat.min_eq_right (show m / b ≤ L by omega)]
      · rw [if_pos (show L ≤ m / b by omega)]
        simp [Nat.min_eq_left hge]
  · intro hndvd hlt
    have hm0 : ¬ m = 0 := fun h => hndvd (h ▸ dvd_zero b)
    have h0 : ¬ pcm.length = 0 := by omega
    rw [hcount h0 hm0, ceil_div_not_dvd b m hk hndvd]
    have hmodpos : 0 < m % b :=
      Nat.pos_of_ne_zero (fun hz => hndvd (Nat.dvd_of_mod_eq_zero hz))
    rw [if_neg (show ¬ L ≤ m / b + 1 by omega),
      if_pos (decide_eq_true hmodpos)]
    push_cast
    ring
  · intro hndvd heq
    have hm0 : ¬ m = 0 := fun h => hndvd (h ▸ dvd_zero b)
    have h0 : ¬ pcm.length = 0 := by omega
    rw [hcount h0 hm0, ceil_div_not_dvd b m hk hndvd]
    rw [if_pos (show L ≤ m / b + 1 by omega)]

/-- Witness for C6: a 16-bit decoder with 5 raw bytes and a 4-slot buffer
decodes 2 samples (the partial trailing sample is discarded), reports no
error, and an exhausted PCM chunk yields count 0 with a nil error. -/
theorem c6_witness :
    (PCMBuffer { NewDecoder with BitDepth := 16 } [0, 1, 0, 2, 9] 4).1 = (5 / 2 : Nat) ∧
    (PCMBuffer { NewDecoder with BitDepth := 16 } [0, 1, 0, 2, 9] 4).2.1 = none ∧
    PCMBuffer { NewDecoder with BitDepth := 16 } [] 4 = (0, none, []) := by
  have h := c6_pcmbuffer_amended { NewDecoder with BitDepth := 16 } [0, 1, 0, 2, 9] 4 2 5
    (by decide) (by decide) (by decide)
  have h2 := c6_pcmbuffer_amended { NewDecoder with BitDepth := 16 } [] 4 2 0
    (by decide) (by decide) (by decide)
  exact ⟨h.2.2.2.2.2.1 (by decide) (by decide), h.2.2.2.1, h2.1 rfl⟩

/-- Writing none into an error-free decoder's error slot is a no-op. -/
theorem set_err_none (d : Decoder) (h : d.err = none) :
    ({ d with err := none } : Decoder) = d := by
  cases d
  simp_all

/-- Length of an encoded chunk: 8 header bytes plus the payload. -/
theorem chunkBytes_length (id : FourCC) (p : List Byte) :
    (chunkBytes id p).length = 8 + p.length := by
  simp [chunkBytes, FourCC.bytes, u32be, List.length_append]
  omega

/-- A non-empty chunk list accumulates a positive rewind amount. -/
theorem chunksRewind_pos (cs : List (FourCC × List Byte)) (h : cs ≠ []) :
    0 < chunksRewind cs := by
  cases cs with
  | nil => exact absurd rfl h
  | cons c rest =>
    obtain ⟨i, p⟩ := c
    simp only [chunksRewind]
    omega

/-- Position-parametric form of `readN_at` (data given by equation). -/
theorem readN_seg (pre mid rest : List Byte) (s : Stream) (n : Nat)
    (hd : s.data = pre ++ (mid ++ rest)) (hp : s.pos = pre.length)
    (hn : n = mid.length) :
    Stream.readN s n = (mid, { s with pos := s.pos + n }, none) := by
  obtain ⟨data, pos⟩ := s
  simp only at hd hp
  subst hd
  subst hp
  subst hn
  have h := readN_at pre mid rest mid.length rfl
  simpa [List.append_assoc] using h

/-- Position-parametric form of `iDnSize_at`. -/
theorem iDnSize_seg (pre rest : List Byte) (idb : FourCC) (z : Nat) (s : Stream)
    (hz : z < 4294967296)
    (hd : s.data = pre ++ (idb.bytes ++ (u32be z ++ rest)))
    (hp : s.pos = pre.length) :
    iDnSize s = ((idb, z), { s with pos := s.pos + 8 }, none) := by
  obtain ⟨data, pos⟩ := s
  simp only at hd hp
  subst hd
  subst hp
  have h := iDnSize_at pre rest idb z hz
  simpa [List.append_assoc] using h

/-- Position-parametric form of `parseCommChunk_at`. -/
theorem parseCommChunk_seg (ieee : List Byte → Int) (d : Decoder)
    (pre payload rest : List Byte) (s : Stream) (sz : Nat)
    (hnc : d.NumChans = 0)
    (hd : s.data = pre ++ (payload ++ rest)) (hp : s.pos = pre.length)
    (hsz : sz = payload.length) :
    parseCommChunk ieee d s sz =
      (parseCommFields ieee { d with commSize := payload.length } payload,
       { s with pos := s.pos + payload.length },
       (parseCommFields ieee { d with commSize := payload.length } payload).err) := by
  obtain ⟨data, pos⟩ := s
  simp only at hd hp
  subst hd
  subst hp
  subst hsz
  have h := parseCommChunk_at ieee d pre payload rest hnc
  simpa [List.append_assoc] using h

/-- The format scan over a run of skippable chunks followed by the COMM
chunk: every skipped chunk adds its size plus 8 to the accumulator and the
COMM parse then seeks back by the whole accumulated amount plus its own
size and header, landing at the position of the first skipped chunk (or
just after COMM when nothing accumulated). -/
theorem readInfoLoop_scan (ieee : List Byte → Int) :
    ∀ (cs : List (FourCC × List Byte)) (fuel : Nat) (d : Decoder) (s : Stream)
      (pre commPayload post : List Byte) (rewind : Nat),
      (∀ c ∈ cs, c.1 ≠ COMMID ∧ c.1 ≠ COMTID ∧ c.2.length < 4294967296) →
      d.err = none → d.SampleRate = 0 → d.NumChans = 0 →
      commPayload.length < 4294967296 →
      cs.length < fuel →
      rewind ≤ pre.length →
      s.data = pre ++ (chunksBytes cs ++ (chunkBytes COMMID commPayload ++ post)) →
      s.pos = pre.length →
      readInfoLoop ieee fuel d s rewind =
        (parseCommFields ieee { d with commSize := commPayload.length } commPayload,
         { s with pos :=
            if 0 < rewind + chunksRewind cs then pre.length - rewind
            else pre.length + 8 + commPayload.length }) := by
  intro cs
  induction cs with
  | nil =>
    intro fuel d s pre commPayload post rewind hcs herr hsr hnc hcl hfuel hrw hd hp
    cases fuel with
    | zero => exact absurd hfuel (Nat.not_lt_zero _)
    | succ fuel =>
      rw [readInfoLoop, if_neg (by simp [herr])]
      rw [iDnSize_seg pre (commPayload ++ post) COMMID commPayload.length s hcl
        (by rw [hd]; simp [chunksBytes, chunkBytes, List.append_assoc]) hp]
      dsimp only
      rw [set_err_none d herr, if_pos rfl]
      rw [parseCommChunk_seg ieee d (pre ++ (COMMID.bytes ++ u32be commPayload.length))
        commPayload post { s with pos := s.pos + 8 } commPayload.length hnc
        (by rw [hd]; simp [chunksBytes, chunkBytes, List.append_assoc])
        (by simp [hp, List.length_append, FourCC.bytes, u32be_length]) rfl]
      dsimp only
      by_cases hrw0 : 0 < rewind
      · have hcond : 0 < rewind + chunksRewind ([] : List (FourCC × List Byte)) := by
          simp only [chunksRewind]
          omega
        rw [if_pos hrw0, if_pos hcond]
        have hpe : s.pos + 8 + commPayload.length - (rewind + commPayload.length + 8)
            = pre.length - rewind := by omega
        rw [hpe]
      · have hcond : ¬ 0 < rewind + chunksRewind ([] : List (FourCC × List Byte)) := by
          simp only [chunksRewind]
          omega
        rw [if_neg hrw0, if_neg hcond]
        have hpe : s.pos + 8 + commPayload.length
            = pre.length + 8 + commPayload.length := by omega
        rw [hpe]
  | cons c cs ih =>
    obtain ⟨cid, cpayload⟩ := c
    intro fuel d s pre commPayload post rewind hcs herr hsr hnc hcl hfuel hrw hd hp
    have hc := hcs (cid, cpayload) (List.mem_cons_self _ _)
    obtain ⟨hcid1, hcid2, hcz⟩ := hc
    have hcs2 : ∀ c ∈ cs, c.1 ≠ COMMID ∧ c.1 ≠ COMTID ∧ c.2.length < 4294967296 :=
      fun c hcm => hcs c (List.mem_cons_of_mem _ hcm)
    cases fuel with
    | zero => exact absurd hfuel (Nat.not_lt_zero _)
    | succ fuel =>
      rw [readInfoLoop, if_neg (by simp [herr])]
      rw [iDnSize_seg pre
        (cpayload ++ (chunksBytes cs ++ (chunkBytes COMMID commPayload ++ post)))
        cid cpayload.length s hcz
        (by rw [hd]; simp [chunksBytes, chunkBytes, List.append_assoc]) hp]
      dsimp only
      rw [set_err_none d herr, if_neg hcid1, if_neg hcid2, if_pos hsr]
      have hrec := ih fuel d ⟨s.data, s.pos + 8 + cpayload.length⟩
        (pre ++ chunkBytes cid cpayload) commPayload post
        (rewind + cpayload.length + 8) hcs2 herr hsr hnc hcl
        (by simpa using Nat.lt_of_succ_lt_succ hfuel)
        (by rw [List.length_append, chunkBytes_length]; omega)
        (by rw [hd]; simp [chunksBytes, chunkBytes, List.append_assoc])
        (by dsimp only; rw [List.length_append, chunkBytes_length, hp]; omega)
      rw [hrec]
      have hpos1 : 0 < rewind + cpayload.length + 8 + chunksRewind cs := by omega
      have hpos2 : 0 < rewind + chunksRewind ((cid, cpayload) :: cs) := by
        simp only [chunksRewind]
        omega
      rw [if_pos hpos1, if_pos hpos2]
      have hpe : (pre ++ chunkBytes cid cpayload).length -
          (rewind + cpayload.length + 8) = pre.length - rewind := by
        rw [List.length_append, chunkBytes_length]
        omega
      rw [hpe]

/-- C1: during the dedicated format scan, (i) every chunk that is neither
COMM nor COMT encountered before COMM adds its declared size plus 8 header
bytes to the rewind accumulator and is skipped without touching the decoder
(one loop iteration reduces to the next with only the cursor and the
accumulator advanced); and (ii) for a run of such chunks followed by the
COMM chunk, the scan parses the COMM payload and seeks backward by the
accumulated amount plus the COMM size plus 8, so the stream ends up at the
position of the first skipped chunk, ready to be visited again. -/
theorem c1_readinfo_scan_rewind (ieee : List Byte → Int) :
    (∀ (fuel : Nat) (d : Decoder) (s : Stream) (pre payload rest : List Byte)
       (id : FourCC) (rewind : Nat),
      id ≠ COMMID → id ≠ COMTID → payload.length < 4294967296 →
      d.err = none → d.SampleRate = 0 →
      s.data = pre ++ (chunkBytes id payload ++ rest) → s.pos = pre.length →
      readInfoLoop ieee (fuel + 1) d s rewind =
        readInfoLoop ieee fuel d { s with pos := s.pos + 8 + payload.length }
          (rewind + payload.length + 8)) ∧
    (∀ (fuel : Nat) (d : Decoder) (s : Stream)
       (cs : List (FourCC × List Byte)) (pre commPayload post : List Byte),
      cs ≠ [] →
      (∀ c ∈ cs, c.1 ≠ COMMID ∧ c.1 ≠ COMTID ∧ c.2.length < 4294967296) →
      d.err = none → d.SampleRate = 0 → d.NumChans = 0 →
      commPayload.length < 4294967296 →
      cs.length < fuel →
      s.data = pre ++ (chunksBytes cs ++ (chunkBytes COMMID commPayload ++ post)) →
      s.pos = pre.length →
      readInfoLoop ieee fuel d s 0 =
        (parseCommFields ieee { d with commSize := commPayload.length } commPayload,
         { s with pos := pre.length })) := by
  constructor
  · intro fuel d s pre payload rest id rewind h1 h2 hz herr hsr hd hp
    rw [readInfoLoop, if_neg (by simp [herr])]
    rw [iDnSize_seg pre (payload ++ rest) id payload.length s hz
      (by rw [hd]; simp [chunkBytes, List.append_assoc]) hp]
    dsimp only
    rw [set_err_none d herr, if_neg h1, if_neg h2, if_pos hsr]
  · intro fuel d s cs pre commPayload post hne hcs herr hsr hnc hcl hfuel hd hp
    rw [readInfoLoop_scan ieee cs fuel d s pre commPayload post 0 hcs herr hsr hnc
      hcl hfuel (Nat.zero_le _) hd hp]
    rw [if_pos (by simpa using chunksRewind_pos cs hne), Nat.sub_zero]

/-- Witness for C1: one scan step over a 1-byte unknown chunk adds 1 + 8 to
the accumulator, and a full scan over one skipped chunk followed by COMM
rewinds the stream to position 2, where the skipped chunk begins. -/
theorem c1_witness :
    readInfoLoop (fun _ => 7) 1 NewDecoder
        ⟨chunkBytes ⟨1, 1, 1, 1⟩ [3] ++ [1, 2, 3], 0⟩ 0 =
      readInfoLoop (fun _ => 7) 0 NewDecoder
        ⟨chunkBytes ⟨1, 1, 1, 1⟩ [3] ++ [1, 2, 3], 9⟩ 9 ∧
    (readInfoLoop (fun _ => 7) 2 NewDecoder
        ⟨[9, 9] ++ (chunksBytes [(⟨1, 1, 1, 1⟩, [5, 6])] ++
          (chunkBytes COMMID ([0, 1, 0, 0, 0, 5, 0, 16] ++ List.replicate 10 0) ++
            [7])), 2⟩ 0).2.pos = 2 := by
  constructor
  · exact (c1_readinfo_scan_rewind (fun _ => 7)).1 0 NewDecoder
      ⟨chunkBytes ⟨1, 1, 1, 1⟩ [3] ++ [1, 2, 3], 0⟩ [] [3] [1, 2, 3] ⟨1, 1, 1, 1⟩ 0
      (by decide) (by decide) (by decide) rfl rfl rfl rfl
  · have h := (c1_readinfo_scan_rewind (fun _ => 7)).2 2 NewDecoder
      ⟨[9, 9] ++ (chunksBytes [(⟨1, 1, 1, 1⟩, [5, 6])] ++
        (chunkBytes COMMID ([0, 1, 0, 0, 0, 5, 0, 16] ++ List.replicate 10 0) ++
          [7])), 2⟩ [(⟨1, 1, 1, 1⟩, [5, 6])] [9, 9]
      ([0, 1, 0, 0, 0, 5, 0, 16] ++ List.replicate 10 0) [7]
      (by decide) (by decide) rfl rfl rfl (by decide) (by decide) rfl rfl
    rw [h]
    rfl

end aiff
